import Mathlib

/-!
A shallow embedding of the pagination and line-index-mapping pipeline of
`src/fish/book_manager.py` (class `BookManager`), together with proofs about
it.  Python strings are modelled as `List Char`; Python `dict`s as
association lists kept in insertion order; the `while` loop of
`_force_split_long_sentence` as a fuel-indexed recursion that returns `none`
when the fuel runs out (fuel `s.length` is proved sufficient whenever the
line budget is at least 1, so a `none` result models a run of the Python
loop that never terminates).
-/

namespace FishReader

/-- The terminal punctuation set `。？！` recognised by
`BookManager._extract_sentences`. -/
def isTerm (c : Char) : Bool :=
  c == '。' || c == '？' || c == '！'

/-- Python's whitespace test as used by `str.strip()` (the common whitespace
characters: ASCII whitespace, no-break space and the ideographic space). -/
def pySpace (c : Char) : Bool :=
  c == ' ' || c == '\t' || c == '\n' || c == '\r' || c == '\x0b' || c == '\x0c' ||
  c == ' ' || c == '　'

/-- Drop trailing whitespace, the right half of Python `str.strip`. -/
def rstripPy (l : List Char) : List Char :=
  (l.reverse.dropWhile pySpace).reverse

/-- Python `str.strip`: drop leading and trailing whitespace. -/
def stripPy (l : List Char) : List Char :=
  rstripPy (l.dropWhile pySpace)

/-- One match of the regex `[^。？！]*[。？！]?` at each scan position, as
`re.findall` produces them in `BookManager._extract_sentences`: a maximal run
of non-terminal characters plus the terminal mark that follows it, if any.
(The final empty match `findall` always appends is added by
`extractSentences`.) -/
def findallAux : List Char → List (List Char)
  | [] => []
  | c :: cs =>
    if isTerm c then [c] :: findallAux cs
    else
      match findallAux cs with
      | [] => [[c]]
      | u :: us => (c :: u) :: us

/-- Mirrors `BookManager._extract_sentences`: the `findall` matches (with the
trailing empty match) kept when `sentence.strip()` is non-empty or the
sentence holds a terminal mark. -/
def extractSentences (text : List Char) : List (List Char) :=
  (findallAux text ++ [[]]).filter (fun u => !(stripPy u).isEmpty || u.any isTerm)

/-- The punctuation set `，；：、` after which `_force_split_long_sentence`
prefers to cut. -/
def isPunctBreak (c : Char) : Bool :=
  c == '，' || c == '；' || c == '：' || c == '、'

/-- The whitespace characters (space, tab) before which
`_force_split_long_sentence` prefers to cut. -/
def isWsBreak (c : Char) : Bool :=
  c == ' ' || c == '\t'

/-- A character at which the forced splitter may cut early. -/
def isBreakChar (c : Char) : Bool :=
  isPunctBreak c || isWsBreak c

/-- `sentence[i]`.  Every use is in range; the default is never read. -/
def charAt (s : List Char) (i : Nat) : Char :=
  s.getD i '\x00'

/-- Python `range(a, b, -1)` over naturals: `[a, a-1, ..., b+1]`. -/
def rangeDown : Nat → Nat → List Nat
  | 0, _ => []
  | a + 1, b => if a + 1 ≤ b then [] else (a + 1) :: rangeDown a b

/-- The backward search of `_force_split_long_sentence` over the index list
`is`: the first index holding a preferred break character, mapped to the cut
position (after a punctuation mark, before a whitespace character). -/
def findBreak (s : List Char) : List Nat → Option Nat
  | [] => none
  | i :: is =>
    if isPunctBreak (charAt s i) then some (i + 1)
    else if isWsBreak (charAt s i) then some i
    else findBreak s is

/-- The cut position one iteration of `_force_split_long_sentence` chooses for
the window ending at `e`: the backward search runs from `e - 1` down to
`start + maxLen / 3` exclusive, and falls back to the hard cut at `e`. -/
def chooseSplitPoint (s : List Char) (maxLen start e : Nat) : Nat :=
  (findBreak s (rangeDown (e - 1) (start + maxLen / 3))).getD e

/-- The cut position `_force_split_long_sentence` derives from a break found
at index `i`: `i + 1` after a punctuation mark, `i` before whitespace. -/
def cutAt (s : List Char) (i : Nat) : Nat :=
  if isPunctBreak (charAt s i) then i + 1 else i

/-- The `while` loop of `_force_split_long_sentence`, with explicit fuel;
`none` models a run that exhausts the fuel (for `maxLen ≥ 1` the fuel
`s.length` is proved sufficient). -/
def forceSplitAux (s : List Char) (maxLen : Nat) : Nat → Nat → Option (List (List Char))
  | 0, start => if start < s.length then none else some []
  | fuel + 1, start =>
    if start < s.length then
      let e := min (start + maxLen) s.length
      if e < s.length then
        let sp := chooseSplitPoint s maxLen start e
        match forceSplitAux s maxLen fuel sp with
        | none => none
        | some rest => some ((s.drop start).take (sp - start) :: rest)
      else some [(s.drop start).take (e - start)]
    else some []

/-- Mirrors `BookManager._force_split_long_sentence`. -/
def forceSplitLongSentence (s : List Char) (maxLen : Nat) : Option (List (List Char)) :=
  if s.length ≤ maxLen then some [s]
  else forceSplitAux s maxLen s.length 0

/-- The loop of `_group_sentences_into_lines`: `lines`, `currentLine` and
`currentLength` are the accumulator variables of the Python loop, and the
final flush of `currentLine` happens in the base case. -/
def groupAux (maxLineLength : Nat) :
    List (List Char) → List (List Char) → List (List Char) → Nat →
    Option (List (List Char))
  | [], lines, currentLine, _ =>
    some (if currentLine.isEmpty then lines else lines ++ [currentLine.flatten])
  | s :: rest, lines, currentLine, currentLength =>
    if maxLineLength < s.length then
      let lines1 := if currentLine.isEmpty then lines else lines ++ [currentLine.flatten]
      match forceSplitLongSentence s maxLineLength with
      | none => none
      | some forced => groupAux maxLineLength rest (lines1 ++ forced) [] 0
    else
      if currentLength + s.length ≤ maxLineLength then
        groupAux maxLineLength rest lines (currentLine ++ [s]) (currentLength + s.length)
      else
        let lines1 := if currentLine.isEmpty then lines else lines ++ [currentLine.flatten]
        groupAux maxLineLength rest lines1 [s] s.length

/-- Mirrors `BookManager._group_sentences_into_lines`. -/
def groupSentencesIntoLines (sentences : List (List Char)) (maxLineLength : Nat) :
    Option (List (List Char)) :=
  groupAux maxLineLength sentences [] [] 0

/-- Mirrors `BookManager._group_lines_into_paragraphs`: two consecutive lines
joined by a newline form one paragraph, a final unpaired line stands alone. -/
def groupLinesIntoParagraphs : List (List Char) → List (List Char)
  | [] => []
  | [l] => [l]
  | l1 :: l2 :: rest => (l1 ++ '\n' :: l2) :: groupLinesIntoParagraphs rest

/-- Mirrors `BookManager._split_line` (default `max_length = 66`). -/
def splitLine (line : List Char) (maxLength : Nat := 66) : Option (List (List Char)) :=
  if (stripPy line).isEmpty then some []
  else
    let sentences := extractSentences line
    if sentences.isEmpty then some []
    else (groupSentencesIntoLines sentences (maxLength / 2)).map groupLinesIntoParagraphs

/-- The two mapping dictionaries of `BookManager` (`line_mapping` and
`reverse_line_mapping`), as association lists in insertion order. -/
structure BMState where
  lineMapping : List (Nat × Nat)
  reverseLineMapping : List (Nat × List Nat)
deriving DecidableEq

/-- The state `BookManager.__init__` sets up: both dictionaries empty. -/
def initState : BMState := ⟨[], []⟩

/-- Python `dict.get`: the value bound to `k`, if any. -/
def dictGet? {α : Type} : List (Nat × α) → Nat → Option α
  | [], _ => none
  | (k, v) :: rest, k' => if k = k' then some v else dictGet? rest k'

/-- Python `d[k] = v`: rebind `k` in place, or append a new binding. -/
def dictInsert {α : Type} : List (Nat × α) → Nat → α → List (Nat × α)
  | [], k, v => [(k, v)]
  | (k', v') :: rest, k, v =>
    if k' = k then (k, v) :: rest else (k', v') :: dictInsert rest k v

/-- `if k not in d: d[k] = []` followed by `d[k].append(v)`. -/
def dictAppendRev : List (Nat × List Nat) → Nat → Nat → List (Nat × List Nat)
  | [], k, v => [(k, [v])]
  | (k', l) :: rest, k, v =>
    if k' = k then (k', l ++ [v]) :: rest else (k', l) :: dictAppendRev rest k v

/-- `reverse_line_mapping.get(k, [])`. -/
def revGet (st : BMState) (k : Nat) : List Nat :=
  (dictGet? st.reverseLineMapping k).getD []

/-- `reverse_line_mapping.get(n, [])` for an arbitrary integer key (the
dictionary only ever holds natural keys). -/
def revGetI (st : BMState) (n : Int) : List Nat :=
  if n < 0 then [] else revGet st n.toNat

/-- The inner `for split_line in split_lines` loop of `get_book_content`:
record each produced paragraph against the source line `actual` and advance
the display index `d`. -/
def recordSplits : List (List Char) → Nat → Nat → BMState → BMState × Nat
  | [], _, d, st => (st, d)
  | _ :: rest, actual, d, st =>
    recordSplits rest actual (d + 1)
      ⟨dictInsert st.lineMapping d actual,
       dictAppendRev st.reverseLineMapping actual d⟩

/-- The main loop of `get_book_content`: skip blank lines, split the others,
record the mappings and collect the produced paragraphs.  `idx` is the
0-based position in the document, `d` the running display index, `st` the
manager's mapping state when the loop starts. -/
def loadAux : List (List Char) → Nat → Nat → BMState →
    Option (BMState × Nat × List (List Char))
  | [], _, d, st => some (st, d, [])
  | l :: ls, idx, d, st =>
    if (stripPy l).isEmpty then loadAux ls (idx + 1) d st
    else
      match splitLine (stripPy l) with
      | none => none
      | some splits =>
        match recordSplits splits (idx + 1) d st with
        | (st1, d1) =>
          match loadAux ls (idx + 1) d1 st1 with
          | none => none
          | some (stf, df, out) => some (stf, df, splits ++ out)

/-- Mirrors `BookManager.get_actual_line_number`. -/
def getActualLineNumber (st : BMState) (i : Int) : Int :=
  if i < 0 then -1
  else
    match dictGet? st.lineMapping i.toNat with
    | some a => (a : Int)
    | none => -1

/-- The backward-scanning loop of `get_display_line_index`, from key `k` down
to key `0`; past `0` the Python loop exits through its `else` arm with
`-1`. -/
def gdliAux (st : BMState) : Nat → Int
  | 0 =>
    match dictGet? st.reverseLineMapping 0 with
    | some (j :: _) => (j : Int)
    | _ => -1
  | k + 1 =>
    match dictGet? st.reverseLineMapping (k + 1) with
    | some (j :: _) => (j : Int)
    | _ => gdliAux st k

/-- Mirrors `BookManager.get_display_line_index`. -/
def getDisplayLineIndex (st : BMState) (n : Int) : Int :=
  if n < 0 then -1 else gdliAux st n.toNat

/-- Proof-side invariant of the mapping state: every display index recorded
in the reverse map lies below the running display counter and maps forward
to its own source line. -/
def MapInv (st : BMState) (d : Nat) : Prop :=
  ∀ k j : Nat, j ∈ revGet st k → j < d ∧ dictGet? st.lineMapping j = some k

/-- Modelled from claim C5's words, not from the source: the same splitter
except that the backward search stops at `start + max_len * 2 / 3`, as the
claim describes, instead of the source's `start + max_line_length // 3`. -/
def claimSplitAux23 (s : List Char) (maxLen : Nat) : Nat → Nat → Option (List (List Char))
  | 0, start => if start < s.length then none else some []
  | fuel + 1, start =>
    if start < s.length then
      let e := min (start + maxLen) s.length
      if e < s.length then
        let sp := (findBreak s (rangeDown (e - 1) (start + maxLen * 2 / 3))).getD e
        match claimSplitAux23 s maxLen fuel sp with
        | none => none
        | some rest => some ((s.drop start).take (sp - start) :: rest)
      else some [(s.drop start).take (e - start)]
    else some []

/-- The forced splitter as claim C5 words it (search window `2/3`). -/
def claimSplit23 (s : List Char) (maxLen : Nat) : Option (List (List Char)) :=
  if s.length ≤ maxLen then some [s]
  else claimSplitAux23 s maxLen s.length 0

/-! ### Stripping: `str.strip` is idempotent -/

lemma length_dropWhile_le {α : Type} (p : α → Bool) (l : List α) :
    (l.dropWhile p).length ≤ l.length := by
  induction l with
  | nil => simp
  | cons c t ih =>
    by_cases h : p c
    · rw [List.dropWhile_cons, if_pos h]
      exact Nat.le_trans ih (Nat.le_succ _)
    · rw [List.dropWhile_cons, if_neg h]

lemma dropWhile_head_false {α : Type} (p : α → Bool) (l : List α) (c : α) (t : List α)
    (h : l.dropWhile p = c :: t) : p c = false := by
  induction l with
  | nil => simp at h
  | cons a l ih =>
    rw [List.dropWhile_cons] at h
    by_cases ha : p a
    · exact ih (by rwa [if_pos ha] at h)
    · rw [if_neg ha] at h
      cases h
      exact Bool.eq_false_iff.mpr ha

lemma dropWhile_idem {α : Type} (p : α → Bool) (l : List α) :
    (l.dropWhile p).dropWhile p = l.dropWhile p := by
  cases h : l.dropWhile p with
  | nil => rfl
  | cons c t =>
    rw [List.dropWhile_cons, if_neg (by simp [dropWhile_head_false p l c t h])]

lemma dropWhile_append_last {α : Type} (p : α → Bool) (A : List α) (c : α)
    (h : p c = false) : ∃ B, (A ++ [c]).dropWhile p = B ++ [c] := by
  induction A with
  | nil => exact ⟨[], by simp [List.dropWhile_cons, h]⟩
  | cons a A ih =>
    by_cases ha : p a
    · simpa [List.dropWhile_cons, ha] using ih
    · exact ⟨a :: A, by simp [List.dropWhile_cons, ha]⟩

lemma rstripPy_idem (l : List Char) : rstripPy (rstripPy l) = rstripPy l := by
  unfold rstripPy
  rw [List.reverse_reverse, dropWhile_idem]

lemma dropWhile_rstripPy (l : List Char) (h : l.dropWhile pySpace = l) :
    (rstripPy l).dropWhile pySpace = rstripPy l := by
  cases l with
  | nil => rfl
  | cons c t =>
    have hc : pySpace c = false := by
      by_cases hc : pySpace c
      · exfalso
        rw [List.dropWhile_cons, if_pos hc] at h
        have h1 := length_dropWhile_le pySpace t
        rw [h] at h1
        simp at h1
      · exact Bool.eq_false_iff.mpr hc
    unfold rstripPy
    rw [List.reverse_cons]
    obtain ⟨B, hB⟩ := dropWhile_append_last pySpace t.reverse c hc
    rw [hB, List.reverse_append]
    simp only [List.reverse_cons, List.reverse_nil, List.nil_append, List.singleton_append]
    rw [List.dropWhile_cons, if_neg (by simp [hc])]

lemma stripPy_idem (l : List Char) : stripPy (stripPy l) = stripPy l := by
  unfold stripPy
  rw [dropWhile_rstripPy _ (dropWhile_idem pySpace l), rstripPy_idem]

/-! ### The backward break search of the forced splitter -/

lemma rangeDown_mem : ∀ a b i : Nat, i ∈ rangeDown a b → b < i ∧ i ≤ a := by
  intro a
  induction a with
  | zero => simp [rangeDown]
  | succ a ih =>
    intro b i h
    by_cases hab : a + 1 ≤ b
    · simp [rangeDown, hab] at h
    · simp only [rangeDown, if_neg hab, List.mem_cons] at h
      rcases h with rfl | h
      · omega
      · have := ih b i h
        omega

lemma findBreak_some_spec (s : List Char) :
    ∀ l : List Nat, ∀ v : Nat, findBreak s l = some v →
      ∃ i ∈ l, isBreakChar (charAt s i) = true ∧ v = cutAt s i := by
  intro l
  induction l with
  | nil => intro v h; simp [findBreak] at h
  | cons i t ih =>
    intro v h
    by_cases hp : isPunctBreak (charAt s i)
    · rw [findBreak, if_pos hp] at h
      cases h
      exact ⟨i, List.mem_cons_self i t, by simp [isBreakChar, hp], by simp [cutAt, hp]⟩
    · by_cases hw : isWsBreak (charAt s i)
      · rw [findBreak, if_neg hp, if_pos hw] at h
        cases h
        refine ⟨i, List.mem_cons_self i t, by simp [isBreakChar, hw], ?_⟩
        simp [cutAt, hp]
      · rw [findBreak, if_neg hp, if_neg hw] at h
        obtain ⟨j, hj, hb, hc⟩ := ih v h
        exact ⟨j, List.mem_cons_of_mem i hj, hb, hc⟩

/-- The search never cuts before `start + 1` nor past the window end. -/
lemma chooseSplitPoint_bounds (s : List Char) (maxLen start : Nat) (hm : 1 ≤ maxLen) :
    start < chooseSplitPoint s maxLen start (start + maxLen) ∧
    chooseSplitPoint s maxLen start (start + maxLen) ≤ start + maxLen := by
  unfold chooseSplitPoint
  cases h : findBreak s (rangeDown (start + maxLen - 1) (start + maxLen / 3)) with
  | none => simp; omega
  | some v =>
    obtain ⟨i, hi, _, hc⟩ := findBreak_some_spec s _ v h
    have hb := rangeDown_mem _ _ _ hi
    have h3 : maxLen / 3 ≤ maxLen := Nat.div_le_self _ _
    simp only [Option.getD_some]
    unfold cutAt at hc
    split at hc <;> omega

/-! ### The forced splitter: termination, losslessness, chunk bounds -/

lemma take_drop_chain (s : List Char) (start sp : Nat) (h1 : start ≤ sp) :
    (s.drop start).take (sp - start) ++ s.drop sp = s.drop start := by
  have h2 : (s.drop start).drop (sp - start) = s.drop sp := by
    rw [List.drop_drop]
    congr 1
    omega
  conv_rhs => rw [← List.take_append_drop (sp - start) (s.drop start)]
  rw [h2]

lemma forceSplitAux_sound (s : List Char) (maxLen : Nat) (hm : 1 ≤ maxLen) :
    ∀ fuel start : Nat, s.length - start ≤ fuel →
      ∃ r, forceSplitAux s maxLen fuel start = some r ∧
        r.flatten = s.drop start ∧
        (∀ c ∈ r, c.length ≤ maxLen) ∧
        (start < s.length → r ≠ []) := by
  intro fuel
  induction fuel with
  | zero =>
    intro start hf
    have hs : ¬ start < s.length := by omega
    refine ⟨[], by simp [forceSplitAux, hs], ?_, by simp, by simp [hs]⟩
    simp [List.drop_eq_nil_of_le (by omega : s.length ≤ start)]
  | succ fuel ih =>
    intro start hf
    by_cases hs : start < s.length
    · by_cases he : min (start + maxLen) s.length < s.length
      · -- the window stops short of the end of the text
        have hemin : min (start + maxLen) s.length = start + maxLen := by omega
        have hwin : start + maxLen < s.length := by omega
        obtain ⟨hsp1, hsp2⟩ := chooseSplitPoint_bounds s maxLen start hm
        obtain ⟨r, hr, hflat, hlen, _⟩ :=
          ih (chooseSplitPoint s maxLen start (start + maxLen)) (by omega)
        refine ⟨(s.drop start).take (chooseSplitPoint s maxLen start (start + maxLen) - start)
            :: r, ?_, ?_, ?_, by simp⟩
        · simp only [forceSplitAux, if_pos hs, hemin, if_pos hwin, hr]
        · rw [List.flatten_cons, hflat, take_drop_chain s _ _ (by omega)]
        · intro c hc
          rcases List.mem_cons.mp hc with rfl | hc
          · exact Nat.le_trans (List.length_take_le _ _) (by omega)
          · exact hlen c hc
      · -- the window reaches the end: emit the tail and stop
        have hemin : min (start + maxLen) s.length = s.length := by omega
        have htail : s.length ≤ start + maxLen := by omega
        refine ⟨[(s.drop start).take (s.length - start)], ?_, ?_, ?_, by simp⟩
        · simp [forceSplitAux, hs, hemin]
        · have : (s.drop start).take (s.length - start) = s.drop start := by
            apply List.take_of_length_le
            simp
          simp [this]
        · intro c hc
          rcases List.mem_cons.mp hc with rfl | hc
          · refine Nat.le_trans (List.length_take_le _ _) (by omega)
          · simp at hc
    · refine ⟨[], by simp [forceSplitAux, hs], ?_, by simp, by simp [hs]⟩
      simp [List.drop_eq_nil_of_le (by omega : s.length ≤ start)]

lemma rangeDown_eq_nil (a b : Nat) (h : a ≤ b) : rangeDown a b = [] := by
  cases a with
  | zero => rfl
  | succ a => simp [rangeDown, h]

/-- With `max_len = 0` every iteration of the Python loop chooses
`split_point = end = start`: no fuel bound is ever enough, which models the
loop running forever. -/
lemma forceSplitAux_budget_zero (s : List Char) :
    ∀ fuel start : Nat, start < s.length → forceSplitAux s 0 fuel start = none := by
  intro fuel
  induction fuel with
  | zero => intro start hs; simp [forceSplitAux, hs]
  | succ fuel ih =>
    intro start hs
    have hcsp : chooseSplitPoint s 0 start start = start := by
      unfold chooseSplitPoint
      rw [rangeDown_eq_nil _ _ (by omega)]
      rfl
    have hmin : min (start + 0) s.length = start := by omega
    simp only [forceSplitAux, if_pos hs, hmin, hcsp, ih start hs]

/-- Claim C2: forced splitting is lossless — for `max_len ≥ 1` the splitter
returns chunks whose concatenation is exactly the input string. -/
theorem forced_split_lossless (s : List Char) (maxLen : Nat) (hm : 1 ≤ maxLen) :
    (forceSplitLongSentence s maxLen).map List.flatten = some s := by
  unfold forceSplitLongSentence
  by_cases h : s.length ≤ maxLen
  · simp [h]
  · obtain ⟨r, hr, hflat, _, _⟩ := forceSplitAux_sound s maxLen hm s.length 0 (by omega)
    simp [h, hr, hflat]

/-- Witness for C2 at `s = "ab"`, `max_len = 1`. -/
theorem forced_split_lossless_witness :
    (forceSplitLongSentence ['a', 'b'] 1).map List.flatten = some ['a', 'b'] :=
  forced_split_lossless ['a', 'b'] 1 (by decide)

/-- Claim C9 (amended): for every `max_len ≥ 1` the forced splitter
terminates on every input and returns at least one chunk. -/
theorem forced_split_terminates_pos (s : List Char) (maxLen : Nat) (hm : 1 ≤ maxLen) :
    (forceSplitLongSentence s maxLen).isSome = true ∧
    1 ≤ ((forceSplitLongSentence s maxLen).getD []).length := by
  unfold forceSplitLongSentence
  by_cases h : s.length ≤ maxLen
  · simp [h]
  · obtain ⟨r, hr, _, _, hne⟩ := forceSplitAux_sound s maxLen hm s.length 0 (by omega)
    have hrne : r ≠ [] := hne (by omega)
    simp only [if_neg h, hr, Option.isSome_some, Option.getD_some, true_and]
    exact Nat.one_le_iff_ne_zero.mpr (by simpa using hrne)

/-- Witness for the amended C9 at `s = "a"`, `max_len = 1`. -/
theorem forced_split_terminates_pos_witness :
    (forceSplitLongSentence ['a'] 1).isSome = true ∧
    1 ≤ ((forceSplitLongSentence ['a'] 1).getD []).length :=
  forced_split_terminates_pos ['a'] 1 (by decide)

/-- Counterexample to C9 as stated: at `max_len = 0` the splitter does not
terminate on the non-empty input `"ab"` — the fuelled loop returns no result
under any fuel bound whatsoever. -/
theorem forced_split_diverges_at_zero :
    forceSplitLongSentence ['a', 'b'] 0 = none ∧
    ∀ fuel : Nat, forceSplitAux ['a', 'b'] 0 fuel 0 = none := by
  refine ⟨rfl, fun fuel => forceSplitAux_budget_zero ['a', 'b'] fuel 0 (by decide)⟩

/-! ### Line packing never exceeds the budget -/

lemma flush_bounded (maxL clen : Nat) (lines current : List (List Char))
    (hlines : ∀ l ∈ lines, l.length ≤ maxL)
    (hcur : current.flatten.length = clen) (hclen : clen ≤ maxL) :
    ∀ l ∈ (if current.isEmpty then lines else lines ++ [current.flatten]),
      l.length ≤ maxL := by
  by_cases hce : current.isEmpty
  · simpa [hce] using hlines
  · simp only [if_neg hce]
    intro l hl
    rcases List.mem_append.mp hl with hl | hl
    · exact hlines l hl
    · simp only [List.mem_singleton] at hl
      subst hl
      omega

lemma groupAux_all_bounded (maxL : Nat) (hm : 1 ≤ maxL) :
    ∀ sentences lines current : List (List Char), ∀ clen : Nat,
      ∀ ls : List (List Char),
      (∀ l ∈ lines, l.length ≤ maxL) →
      current.flatten.length = clen →
      clen ≤ maxL →
      groupAux maxL sentences lines current clen = some ls →
      ∀ l ∈ ls, l.length ≤ maxL := by
  intro sentences
  induction sentences with
  | nil =>
    intro lines current clen ls hlines hcur hclen h
    simp only [groupAux, Option.some.injEq] at h
    subst h
    exact flush_bounded maxL clen lines current hlines hcur hclen
  | cons sen rest ih =>
    intro lines current clen ls hlines hcur hclen h
    simp only [groupAux] at h
    by_cases hover : maxL < sen.length
    · rw [if_pos hover] at h
      cases hfs : forceSplitLongSentence sen maxL with
      | none => rw [hfs] at h; simp at h
      | some forced =>
        rw [hfs] at h
        have hforced : ∀ c ∈ forced, c.length ≤ maxL := by
          unfold forceSplitLongSentence at hfs
          by_cases hle : sen.length ≤ maxL
          · omega
          · rw [if_neg hle] at hfs
            obtain ⟨r, hr, _, hlen, _⟩ := forceSplitAux_sound sen maxL hm sen.length 0 (by omega)
            rw [hr] at hfs
            cases hfs
            exact hlen
        refine ih _ [] 0 ls ?_ rfl (by omega) h
        intro l hl
        rcases List.mem_append.mp hl with hl | hl
        · exact flush_bounded maxL clen lines current hlines hcur hclen l hl
        · exact hforced l hl
    · rw [if_neg hover] at h
      by_cases hfit : clen + sen.length ≤ maxL
      · rw [if_pos hfit] at h
        refine ih _ (current ++ [sen]) (clen + sen.length) ls hlines ?_ hfit h
        simp [hcur]
      · rw [if_neg hfit] at h
        refine ih _ [sen] sen.length ls
          (flush_bounded maxL clen lines current hlines hcur hclen) (by simp) (by omega) h

/-- Claim C1: for a non-blank input line and any `max_line_length ≥ 1`,
every display line the packing stage emits (forced-split chunks included)
has length at most `max_line_length`. -/
theorem display_lines_bounded (line : List Char) (maxL : Nat)
    (hblank : (stripPy line).isEmpty = false) (hm : 1 ≤ maxL)
    (ls : List (List Char))
    (h : groupSentencesIntoLines (extractSentences line) maxL = some ls) :
    ls.all (fun l => decide (l.length ≤ maxL)) = true := by
  rw [List.all_eq_true]
  intro l hl
  rw [decide_eq_true_eq]
  exact groupAux_all_bounded maxL hm (extractSentences line) [] [] 0 ls
    (by simp) rfl (by omega) h l hl

/-- Witness for C1: the line `"a。bb。"` packed with budget 2. -/
theorem display_lines_bounded_witness :
    List.all [['a', '。'], ['b', 'b'], ['。']] (fun l => decide (l.length ≤ 2)) = true :=
  display_lines_bounded ['a', '。', 'b', 'b', '。'] 2 (by decide) (by decide)
    [['a', '。'], ['b', 'b'], ['。']] (by decide)

/-! ### Characterising the backward search window -/

lemma findBreak_rangeDown_spec (s : List Char) :
    ∀ a b : Nat,
      ((∀ i, b < i → i ≤ a → isBreakChar (charAt s i) = false) ∧
        findBreak s (rangeDown a b) = none) ∨
      (∃ i, b < i ∧ i ≤ a ∧ isBreakChar (charAt s i) = true ∧
        (∀ j, i < j → j ≤ a → isBreakChar (charAt s j) = false) ∧
        findBreak s (rangeDown a b) = some (cutAt s i)) := by
  intro a
  induction a with
  | zero =>
    intro b
    left
    exact ⟨fun i h1 h2 => by omega, rfl⟩
  | succ a ih =>
    intro b
    by_cases hab : a + 1 ≤ b
    · left
      refine ⟨fun i h1 h2 => by omega, ?_⟩
      rw [rangeDown_eq_nil _ _ hab]
      rfl
    · have hunfold : rangeDown (a + 1) b = (a + 1) :: rangeDown a b := by
        simp [rangeDown, hab]
      by_cases hbreak : isBreakChar (charAt s (a + 1)) = true
      · right
        refine ⟨a + 1, by omega, le_refl _, hbreak, fun j h1 h2 => by omega, ?_⟩
        rw [hunfold]
        simp only [isBreakChar, Bool.or_eq_true] at hbreak
        by_cases hp : isPunctBreak (charAt s (a + 1))
        · rw [findBreak, if_pos hp]
          simp [cutAt, hp]
        · have hw : isWsBreak (charAt s (a + 1)) = true := by
            rcases hbreak with hb | hb
            · exact absurd hb hp
            · exact hb
          rw [findBreak, if_neg hp, if_pos hw]
          simp [cutAt, hp]
      · have hnb : isBreakChar (charAt s (a + 1)) = false := by
          simpa using hbreak
        have hsplit : isPunctBreak (charAt s (a + 1)) = false ∧
            isWsBreak (charAt s (a + 1)) = false := by
          simpa [isBreakChar] using hnb
        have hfb : findBreak s (rangeDown (a + 1) b) = findBreak s (rangeDown a b) := by
          rw [hunfold, findBreak, if_neg (by simp [hsplit.1]), if_neg (by simp [hsplit.2])]
        rcases ih b with ⟨hnone, hfb2⟩ | ⟨i, h1, h2, h3, h4, h5⟩
        · left
          refine ⟨fun i hi1 hi2 => ?_, by rw [hfb]; exact hfb2⟩
          by_cases hia : i = a + 1
          · subst hia; exact hnb
          · exact hnone i hi1 (by omega)
        · right
          refine ⟨i, h1, by omega, h3, fun j hj1 hj2 => ?_, by rw [hfb]; exact h5⟩
          by_cases hja : j = a + 1
          · subst hja; exact hnb
          · exact h4 j hj1 (by omega)

/-- Claim C5 (amended): in an iteration whose window `[start, start+max_len)`
stops short of the end, the splitter cuts at the break position derived from
the largest index in `(start + max_len / 3, start + max_len - 1]` holding a
preferred break character (after `，；：、`, before space or tab), and cuts
exactly at `start + max_len` when that range holds none.  The search floor is
`start + max_len / 3` exclusive, not `start + max_len * 2 / 3`. -/
theorem forced_split_break_search (s : List Char) (maxLen start : Nat)
    (hm : 1 ≤ maxLen) (hwin : start + maxLen < s.length) :
    (∃ i, start + maxLen / 3 < i ∧ i ≤ start + maxLen - 1 ∧
      isBreakChar (charAt s i) = true ∧
      (∀ j, i < j → j ≤ start + maxLen - 1 → isBreakChar (charAt s j) = false) ∧
      chooseSplitPoint s maxLen start (start + maxLen) = cutAt s i) ∨
    ((∀ i, start + maxLen / 3 < i → i ≤ start + maxLen - 1 →
        isBreakChar (charAt s i) = false) ∧
      chooseSplitPoint s maxLen start (start + maxLen) = start + maxLen) := by
  unfold chooseSplitPoint
  rcases findBreak_rangeDown_spec s (start + maxLen - 1) (start + maxLen / 3) with
    ⟨hn, hf⟩ | ⟨i, h1, h2, h3, h4, h5⟩
  · right
    exact ⟨hn, by rw [hf]; rfl⟩
  · left
    exact ⟨i, h1, h2, h3, h4, by rw [h5]; rfl⟩

/-- Witness for the amended C5 at `s = "abc，defgh"`, `max_len = 6`,
`start = 0` (the break at the comma, index 3, is found). -/
theorem forced_split_break_search_witness :
    (∃ i, 6 / 3 < i ∧ i ≤ 5 ∧
      isBreakChar (charAt ['a', 'b', 'c', '，', 'd', 'e', 'f', 'g', 'h'] i) = true ∧
      (∀ j, i < j → j ≤ 5 →
        isBreakChar (charAt ['a', 'b', 'c', '，', 'd', 'e', 'f', 'g', 'h'] j) = false) ∧
      chooseSplitPoint ['a', 'b', 'c', '，', 'd', 'e', 'f', 'g', 'h'] 6 0 6 =
        cutAt ['a', 'b', 'c', '，', 'd', 'e', 'f', 'g', 'h'] i) ∨
    ((∀ i, 6 / 3 < i → i ≤ 5 →
        isBreakChar (charAt ['a', 'b', 'c', '，', 'd', 'e', 'f', 'g', 'h'] i) = false) ∧
      chooseSplitPoint ['a', 'b', 'c', '，', 'd', 'e', 'f', 'g', 'h'] 6 0 6 = 6) :=
  forced_split_break_search ['a', 'b', 'c', '，', 'd', 'e', 'f', 'g', 'h'] 6 0
    (by decide) (by decide)

/-- Counterexample to C5 as stated: with the claim's `2/3` search floor the
splitter would miss the comma at index 3 of `"abc，defgh"` and hard-cut at 6;
the code's `1/3` floor finds it and cuts after it. -/
theorem forced_split_search_window_counterexample :
    forceSplitLongSentence ['a', 'b', 'c', '，', 'd', 'e', 'f', 'g', 'h'] 6 =
      some [['a', 'b', 'c', '，'], ['d', 'e', 'f', 'g', 'h']] ∧
    claimSplit23 ['a', 'b', 'c', '，', 'd', 'e', 'f', 'g', 'h'] 6 =
      some [['a', 'b', 'c', '，', 'd', 'e'], ['f', 'g', 'h']] ∧
    forceSplitLongSentence ['a', 'b', 'c', '，', 'd', 'e', 'f', 'g', 'h'] 6 ≠
      claimSplit23 ['a', 'b', 'c', '，', 'd', 'e', 'f', 'g', 'h'] 6 :=
  ⟨by decide, by decide, by decide⟩

/-! ### Sentence extraction: terminal marks end their unit -/

lemma findallAux_units : ∀ t u : List Char, u ∈ findallAux t →
    u.dropLast.all (fun c => !isTerm c) = true := by
  intro t
  induction t with
  | nil => simp [findallAux]
  | cons c cs ih =>
    intro u h
    by_cases hc : isTerm c
    · simp only [findallAux, if_pos hc, List.mem_cons] at h
      rcases h with rfl | h
      · simp
      · exact ih u h
    · simp only [findallAux, if_neg hc] at h
      cases hfa : findallAux cs with
      | nil =>
        rw [hfa] at h
        simp only [List.mem_singleton] at h
        subst h
        simp
      | cons u0 us =>
        rw [hfa] at h
        rcases List.mem_cons.mp h with rfl | h
        · have hu0 := ih u0 (by rw [hfa]; exact List.mem_cons_self _ _)
          cases u0 with
          | nil => simp
          | cons x xs =>
            have hdl : (c :: x :: xs).dropLast = c :: (x :: xs).dropLast := rfl
            rw [hdl, List.all_cons]
            simp only [Bool.and_eq_true]
            exact ⟨by simp [hc], hu0⟩
        · exact ih u (by rw [hfa]; exact List.mem_cons_of_mem _ h)

/-- Claim C6 (amended): every extracted sentence unit holds a terminal mark
only as its final character; in particular a closing quotation mark that
follows a terminal mark is never attached to the preceding unit — it begins
the next one. -/
theorem extract_terminal_only_last (t u : List Char) (h : u ∈ extractSentences t) :
    u.dropLast.all (fun c => !isTerm c) = true := by
  unfold extractSentences at h
  have h2 := List.mem_of_mem_filter h
  rcases List.mem_append.mp h2 with h3 | h3
  · exact findallAux_units t u h3
  · simp only [List.mem_singleton] at h3
    subst h3
    simp

/-- Witness for the amended C6 at `t = "A。”B"`, `u = "A。"`. -/
theorem extract_terminal_only_last_witness :
    (['A', '。'] : List Char).dropLast.all (fun c => !isTerm c) = true :=
  extract_terminal_only_last ['A', '。', '”', 'B'] ['A', '。'] (by decide)

/-- Counterexample to C6 as stated: in `"A。”B"` the closing quote after the
mark is not attached to the first unit; the extractor returns
`["A。", "”B"]`, never a unit `"A。”"`. -/
theorem extract_quote_not_attached :
    extractSentences ['A', '。', '”', 'B'] = [['A', '。'], ['”', 'B']] ∧
    extractSentences ['A', '。', '”', 'B'] ≠ [['A', '。', '”'], ['B']] :=
  ⟨by decide, by decide⟩

/-! ### Scenario C: a 200-character line with no break characters -/

set_option maxRecDepth 4000

/-- Claim C3 (amended): on a 200-character line with no recognised
punctuation and `max_line_length = 33`, the forced splitter yields exactly 7
chunks (six of 33 characters and one of 2), each of length at most 33, whose
concatenation is the original line; the pipeline then pairs consecutive
chunks two-per-paragraph, so `_split_line` returns 4 paragraphs (three
two-line paragraphs and the odd final chunk alone). -/
theorem scenario_c_seven_chunks_four_paragraphs :
    forceSplitLongSentence (List.replicate 200 'a') 33 =
      some (List.replicate 6 (List.replicate 33 'a') ++ [List.replicate 2 'a']) ∧
    ((forceSplitLongSentence (List.replicate 200 'a') 33).getD []).length = 7 ∧
    (((forceSplitLongSentence (List.replicate 200 'a') 33).getD []).all
      (fun c => decide (c.length ≤ 33))) = true ∧
    ((forceSplitLongSentence (List.replicate 200 'a') 33).getD []).flatten =
      List.replicate 200 'a' ∧
    splitLine (List.replicate 200 'a') =
      some [List.replicate 33 'a' ++ '\n' :: List.replicate 33 'a',
            List.replicate 33 'a' ++ '\n' :: List.replicate 33 'a',
            List.replicate 33 'a' ++ '\n' :: List.replicate 33 'a',
            List.replicate 2 'a'] :=
  ⟨rfl, rfl, rfl, rfl, rfl⟩

/-- Counterexample to C3 as stated: the splitter yields 7 chunks, yet the
pipeline output holds 4 paragraphs, so the chunks do not each become their
own paragraph. -/
theorem scenario_c_chunks_are_paired :
    (forceSplitLongSentence (List.replicate 200 'a') 33).map List.length = some 7 ∧
    (splitLine (List.replicate 200 'a')).map List.length = some 4 :=
  ⟨rfl, rfl⟩

/-! ### Dictionary operations -/

lemma dictGet?_insert_self {α : Type} (m : List (Nat × α)) (k : Nat) (v : α) :
    dictGet? (dictInsert m k v) k = some v := by
  induction m with
  | nil => simp [dictInsert, dictGet?]
  | cons p rest ih =>
    obtain ⟨k', v'⟩ := p
    by_cases h : k' = k
    · subst h
      simp [dictInsert, dictGet?]
    · simp [dictInsert, dictGet?, h, ih]

lemma dictGet?_insert_ne {α : Type} (m : List (Nat × α)) (k k' : Nat) (v : α)
    (h : k' ≠ k) : dictGet? (dictInsert m k v) k' = dictGet? m k' := by
  have hkk : ¬ k = k' := fun he => h he.symm
  induction m with
  | nil => simp [dictInsert, dictGet?, hkk]
  | cons p rest ih =>
    obtain ⟨a, b⟩ := p
    by_cases ha : a = k
    · subst ha
      simp [dictInsert, dictGet?, hkk]
    · simp [dictInsert, dictGet?, ha, ih]

lemma dictAppendRev_self (m : List (Nat × List Nat)) (k v : Nat) :
    dictGet? (dictAppendRev m k v) k = some ((dictGet? m k).getD [] ++ [v]) := by
  induction m with
  | nil => simp [dictAppendRev, dictGet?]
  | cons p rest ih =>
    obtain ⟨a, l⟩ := p
    by_cases ha : a = k
    · subst ha
      simp [dictAppendRev, dictGet?]
    · simp [dictAppendRev, dictGet?, ha, ih]

lemma dictAppendRev_ne (m : List (Nat × List Nat)) (k k' v : Nat) (h : k' ≠ k) :
    dictGet? (dictAppendRev m k v) k' = dictGet? m k' := by
  have hkk : ¬ k = k' := fun he => h he.symm
  induction m with
  | nil => simp [dictAppendRev, dictGet?, hkk]
  | cons p rest ih =>
    obtain ⟨a, l⟩ := p
    by_cases ha : a = k
    · subst ha
      simp [dictAppendRev, dictGet?, hkk]
    · simp [dictAppendRev, dictGet?, ha, ih]

/-! ### The mapping invariant through a content load -/

lemma recordSplits_inv :
    ∀ splits : List (List Char), ∀ actual d : Nat, ∀ st st' : BMState, ∀ d' : Nat,
      MapInv st d → recordSplits splits actual d st = (st', d') →
      MapInv st' d' ∧ d ≤ d' := by
  intro splits
  induction splits with
  | nil =>
    intro actual d st st' d' hinv h
    simp only [recordSplits, Prod.mk.injEq] at h
    obtain ⟨rfl, rfl⟩ := h
    exact ⟨hinv, le_refl _⟩
  | cons c rest ih =>
    intro actual d st st' d' hinv h
    simp only [recordSplits] at h
    have hstep : MapInv
        ⟨dictInsert st.lineMapping d actual, dictAppendRev st.reverseLineMapping actual d⟩
        (d + 1) := by
      intro k j hj
      by_cases hk : k = actual
      · subst hk
        rw [revGet, dictAppendRev_self, Option.getD_some] at hj
        rcases List.mem_append.mp hj with hj | hj
        · obtain ⟨hjd, hjm⟩ := hinv k j hj
          refine ⟨by omega, ?_⟩
          rw [dictGet?_insert_ne _ _ _ _ (by omega)]
          exact hjm
        · simp only [List.mem_singleton] at hj
          subst hj
          exact ⟨by omega, dictGet?_insert_self _ _ _⟩
      · rw [revGet, dictAppendRev_ne _ _ _ _ hk] at hj
        obtain ⟨hjd, hjm⟩ := hinv k j hj
        refine ⟨by omega, ?_⟩
        rw [dictGet?_insert_ne _ _ _ _ (by omega)]
        exact hjm
    obtain ⟨hinv', hd⟩ := ih actual (d + 1) _ st' d' hstep h
    exact ⟨hinv', by omega⟩

lemma loadAux_inv :
    ∀ ls : List (List Char), ∀ idx d : Nat, ∀ st stf : BMState, ∀ df : Nat,
      ∀ out : List (List Char),
      MapInv st d → loadAux ls idx d st = some (stf, df, out) → MapInv stf df := by
  intro ls
  induction ls with
  | nil =>
    intro idx d st stf df out hinv h
    simp only [loadAux, Option.some.injEq, Prod.mk.injEq] at h
    obtain ⟨rfl, rfl, rfl⟩ := h
    exact hinv
  | cons l ls ih =>
    intro idx d st stf df out hinv h
    simp only [loadAux] at h
    by_cases hblank : (stripPy l).isEmpty
    · rw [if_pos hblank] at h
      exact ih _ _ _ _ _ _ hinv h
    · rw [if_neg hblank] at h
      cases hsp : splitLine (stripPy l) with
      | none =>
        rw [hsp] at h
        simp at h
      | some splits =>
        rw [hsp] at h
        simp only [] at h
        cases hrec : recordSplits splits (idx + 1) d st with
        | mk st1 d1 =>
          rw [hrec] at h
          simp only [] at h
          obtain ⟨hinv1, _⟩ := recordSplits_inv splits (idx + 1) d st st1 d1 hinv hrec
          cases hload : loadAux ls (idx + 1) d1 st1 with
          | none =>
            rw [hload] at h
            simp at h
          | some trip =>
            obtain ⟨stf', df', out'⟩ := trip
            rw [hload] at h
            simp only [Option.some.injEq, Prod.mk.injEq] at h
            obtain ⟨rfl, rfl, _⟩ := h
            exact ih _ _ _ _ _ _ hinv1 hload

/-! ### Forward and reverse lookups -/

lemma gdliAux_lookup (st : BMState) (k j : Nat) (rest : List Nat)
    (h : dictGet? st.reverseLineMapping k = some (j :: rest)) :
    gdliAux st k = (j : Int) := by
  cases k with
  | zero => simp [gdliAux, h]
  | succ k => simp [gdliAux, h]

lemma gdliAux_step (st : BMState) (k : Nat) (h : revGet st (k + 1) = []) :
    gdliAux st (k + 1) = gdliAux st k := by
  rw [revGet] at h
  cases hdg : dictGet? st.reverseLineMapping (k + 1) with
  | none => simp [gdliAux, hdg]
  | some l =>
    rw [hdg, Option.getD_some] at h
    subst h
    simp [gdliAux, hdg]

lemma gdliAux_zero (st : BMState) (h : revGet st 0 = []) : gdliAux st 0 = -1 := by
  rw [revGet] at h
  cases hdg : dictGet? st.reverseLineMapping 0 with
  | none => simp [gdliAux, hdg]
  | some l =>
    rw [hdg, Option.getD_some] at h
    subst h
    simp [gdliAux, hdg]

lemma gdliAux_all_empty (st : BMState) :
    ∀ k : Nat, (∀ m : Nat, m ≤ k → revGet st m = []) → gdliAux st k = -1 := by
  intro k
  induction k with
  | zero =>
    intro h
    exact gdliAux_zero st (h 0 (le_refl 0))
  | succ k ih =>
    intro h
    rw [gdliAux_step st k (h (k + 1) (le_refl _))]
    exact ih (fun m hm => h m (by omega))

/-- Claim C7 (amended): after a content load performed on a manager whose
mappings start empty (the state `__init__` sets up), every source line with a
non-empty reverse entry round-trips: the forward lookup of its first display
index returns the line itself. -/
theorem fresh_load_roundtrip (doc : List (List Char)) (st : BMState) (d : Nat)
    (out : List (List Char)) (L : Nat)
    (h : loadAux doc 0 0 initState = some (st, d, out))
    (hL : revGet st L ≠ []) :
    getActualLineNumber st (getDisplayLineIndex st (L : Int)) = (L : Int) := by
  have hinv0 : MapInv initState 0 := by
    intro k j hj
    simp [revGet, initState, dictGet?] at hj
  have hinv := loadAux_inv doc 0 0 initState st d out hinv0 h
  obtain ⟨j, rest, hrev⟩ : ∃ j rest, revGet st L = j :: rest := by
    cases hr : revGet st L with
    | nil => exact absurd hr hL
    | cons j rest => exact ⟨j, rest, rfl⟩
  have hmem : j ∈ revGet st L := by
    rw [hrev]
    exact List.mem_cons_self _ _
  obtain ⟨hjd, hjmap⟩ := hinv L j hmem
  have hlookup : dictGet? st.reverseLineMapping L = some (j :: rest) := by
    rw [revGet] at hrev
    cases hdg : dictGet? st.reverseLineMapping L with
    | none =>
      rw [hdg] at hrev
      simp at hrev
    | some l =>
      rw [hdg, Option.getD_some] at hrev
      rw [hrev]
  have hgd : getDisplayLineIndex st (L : Int) = (j : Int) := by
    rw [getDisplayLineIndex, if_neg (by omega), Int.toNat_natCast]
    exact gdliAux_lookup st L j rest hlookup
  rw [hgd, getActualLineNumber, if_neg (by omega), Int.toNat_natCast, hjmap]

/-- Witness for the amended C7: the one-line document `["A。"]`, queried at
source line 1. -/
theorem fresh_load_roundtrip_witness :
    getActualLineNumber ⟨[(0, 1)], [(1, [0])]⟩
      (getDisplayLineIndex ⟨[(0, 1)], [(1, [0])]⟩ ((1 : Nat) : Int)) = ((1 : Nat) : Int) :=
  fresh_load_roundtrip [['A', '。']] ⟨[(0, 1)], [(1, [0])]⟩ 1 [['A', '。']] 1
    (by decide) (by decide)

/-- Counterexample to C7 as stated: loading `["", "P。"]` and then
`["Q。", "R。"]` on the same manager leaves a stale reverse entry, and the
round trip for source line 2 — which produced a paragraph in the second
load — returns 1 instead of 2. -/
theorem stale_mappings_break_roundtrip :
    loadAux [[], ['P', '。']] 0 0 initState =
      some (⟨[(0, 2)], [(2, [0])]⟩, 1, [['P', '。']]) ∧
    loadAux [['Q', '。'], ['R', '。']] 0 0 ⟨[(0, 2)], [(2, [0])]⟩ =
      some (⟨[(0, 1), (1, 2)], [(2, [0, 1]), (1, [0])]⟩, 2, [['Q', '。'], ['R', '。']]) ∧
    revGet ⟨[(0, 1), (1, 2)], [(2, [0, 1]), (1, [0])]⟩ 2 ≠ [] ∧
    getActualLineNumber ⟨[(0, 1), (1, 2)], [(2, [0, 1]), (1, [0])]⟩
      (getDisplayLineIndex ⟨[(0, 1), (1, 2)], [(2, [0, 1]), (1, [0])]⟩ 2) = 1 := by
  refine ⟨by decide, by decide, by decide, by decide⟩

/-- Claim C8: the reverse lookup falls back line by line — for a key with no
entry the result equals the lookup one line lower; when no key at or below
the query holds an entry the result is the sentinel `-1`; and a non-empty
entry answers with its first display index. -/
theorem reverse_lookup_fallback (st : BMState) (n : Int) :
    (revGetI st n = [] → getDisplayLineIndex st n = getDisplayLineIndex st (n - 1)) ∧
    ((∀ m : Int, m ≤ n → revGetI st m = []) → getDisplayLineIndex st n = -1) ∧
    (∀ j : Nat, ∀ rest : List Nat, revGetI st n = j :: rest →
      getDisplayLineIndex st n = (j : Int)) := by
  refine ⟨?_, ?_, ?_⟩
  · intro hempty
    rcases Int.lt_or_le n 0 with hn | hn
    · have hn1 : n - 1 < 0 := by omega
      simp [getDisplayLineIndex, hn, hn1]
    · rw [getDisplayLineIndex, if_neg (by omega)]
      rw [revGetI, if_neg (by omega)] at hempty
      cases hk : n.toNat with
      | zero =>
        rw [hk] at hempty
        have hn0 : n = 0 := by omega
        subst hn0
        rw [getDisplayLineIndex, if_pos (by omega)]
        exact gdliAux_zero st hempty
      | succ k =>
        rw [hk] at hempty
        rw [gdliAux_step st k hempty]
        rw [getDisplayLineIndex, if_neg (by omega)]
        congr 1
        omega
  · intro hall
    rcases Int.lt_or_le n 0 with hn | hn
    · simp [getDisplayLineIndex, hn]
    · rw [getDisplayLineIndex, if_neg (by omega)]
      refine gdliAux_all_empty st n.toNat (fun m hm => ?_)
      have h2 := hall (m : Int) (by omega)
      rw [revGetI, if_neg (by omega), Int.toNat_natCast] at h2
      exact h2
  · intro j rest hrev
    rcases Int.lt_or_le n 0 with hn | hn
    · rw [revGetI, if_pos hn] at hrev
      simp at hrev
    · rw [revGetI, if_neg (by omega)] at hrev
      rw [getDisplayLineIndex, if_neg (by omega)]
      have hlookup : dictGet? st.reverseLineMapping n.toNat = some (j :: rest) := by
        rw [revGet] at hrev
        cases hdg : dictGet? st.reverseLineMapping n.toNat with
        | none =>
          rw [hdg] at hrev
          simp at hrev
        | some l =>
          rw [hdg, Option.getD_some] at hrev
          rw [hrev]
      exact gdliAux_lookup st n.toNat j rest hlookup

/-- Witness exercising C8 at a concrete state: the state after loading
`["", "A。", "", "B。"]`, queried at the blank line 3 and below line 1. -/
theorem reverse_lookup_fallback_witness :
    getDisplayLineIndex ⟨[(0, 2), (1, 4)], [(2, [0]), (4, [1])]⟩ 3 =
      getDisplayLineIndex ⟨[(0, 2), (1, 4)], [(2, [0]), (4, [1])]⟩ 2 ∧
    getDisplayLineIndex ⟨[(0, 2), (1, 4)], [(2, [0]), (4, [1])]⟩ 1 = -1 :=
  ⟨(reverse_lookup_fallback ⟨[(0, 2), (1, 4)], [(2, [0]), (4, [1])]⟩ 3).1 (by decide),
   (reverse_lookup_fallback ⟨[(0, 2), (1, 4)], [(2, [0]), (4, [1])]⟩ 1).2.1
     (fun m hm => by
        rw [revGetI]
        split
        · rfl
        · interval_cases m <;> decide)⟩

/-- Claim C4: `get_book_content` never clears the two mapping dictionaries,
so a second load keeps stale entries of the first — here the forward entry
`1 ↦ 2` survives a reload that produced a single paragraph, and the reverse
entry for line 1 grows to `[0, 0]`. -/
theorem stale_state_after_reload :
    loadAux [['A', '。'], ['B', '。']] 0 0 initState =
      some (⟨[(0, 1), (1, 2)], [(1, [0]), (2, [1])]⟩, 2, [['A', '。'], ['B', '。']]) ∧
    loadAux [['C', '。']] 0 0 ⟨[(0, 1), (1, 2)], [(1, [0]), (2, [1])]⟩ =
      some (⟨[(0, 1), (1, 2)], [(1, [0, 0]), (2, [1])]⟩, 1, [['C', '。']]) ∧
    getActualLineNumber ⟨[(0, 1), (1, 2)], [(1, [0, 0]), (2, [1])]⟩ 1 = 2 ∧
    revGet ⟨[(0, 1), (1, 2)], [(1, [0, 0]), (2, [1])]⟩ 1 = [0, 0] := by
  refine ⟨by decide, by decide, by decide, by decide⟩

/-- Claim C10: every source line is stripped before segmentation, so
pre-stripping a document's lines changes nothing in the load — no leading or
trailing whitespace of a source line can reach the output paragraphs or the
mappings. -/
theorem strip_before_segmentation (doc : List (List Char)) (idx d : Nat) (st : BMState) :
    loadAux (doc.map stripPy) idx d st = loadAux doc idx d st := by
  induction doc generalizing idx d st with
  | nil => rfl
  | cons l ls ih =>
    show loadAux (stripPy l :: ls.map stripPy) idx d st = loadAux (l :: ls) idx d st
    simp only [loadAux, stripPy_idem]
    by_cases hb : (stripPy l).isEmpty
    · simp only [if_pos hb]
      exact ih (idx + 1) d st
    · simp only [if_neg hb]
      cases hsp : splitLine (stripPy l) with
      | none => rfl
      | some splits =>
        cases hrec : recordSplits splits (idx + 1) d st with
        | mk st1 d1 => simp only [hrec, ih]

end FishReader
